import Mathlib

/-!
# Verification of the toyGPT BPE tokenizer

Shallow embedding of the tokenizer sources:
* `src/tokenizer/helper.py` (`getPairStats`, `merge`),
* `src/tokenizer/baseTokenizer.py` (`BaseTokenizer.encode/decode/_build_vocab_dict`),
* `src/tokenizer/basicTokenizer.py` (`BasicTokenizer.train/encode/decode`),
* `src/tokenizer/advanceTokenizer.py` (`AdvanceTokenizer.train/encode/decode`).

Python `dict` objects (which preserve insertion order, update values in place,
and append new keys at the end) are embedded as association lists with the
`dinsert`/`dget` operations below.  Text (a Python `str`) is embedded as a list
of Unicode scalar values; `str.encode("utf-8")` and
`bytes.decode("utf-8", errors = "replace")` are embedded by `utf8Encode` and
`utf8Decode`.  The pre-tokenization regex of `AdvanceTokenizer` is an external
library (`import regex`), so segmentation is a parameter `seg` of the segmented
definitions, constrained only where a claim constrains it.
-/

namespace ToyGPT

abbrev Pair := Nat × Nat

/-- Python `dict` assignment `d[k] = v`: update in place if `k` is present
(keeping its position), else append the new key at the end. -/
def dinsert {K V : Type} [DecidableEq K] : List (K × V) → K → V → List (K × V)
  | [], k, v => [(k, v)]
  | (k1, v1) :: rest, k, v =>
    if k1 = k then (k, v) :: rest else (k1, v1) :: dinsert rest k v

/-- Python `dict` lookup `d.get(k)` / `d[k]`: `none` models a missing key
(`KeyError` at use sites that index directly). -/
def dget {K V : Type} [DecidableEq K] : List (K × V) → K → Option V
  | [], _ => none
  | (k1, v1) :: rest, k => if k1 = k then some v1 else dget rest k

/-- `d.get(k, dflt)`. -/
def dgetD {K V : Type} [DecidableEq K] (d : List (K × V)) (k : K) (dflt : V) : V :=
  (dget d k).getD dflt

/-- One loop body of `helper.getPairStats`: `pairStats[pair] += 1` or
`pairStats[pair] = 1`. -/
def statInc (acc : List (Pair × Nat)) (p : Pair) : List (Pair × Nat) :=
  match dget acc p with
  | some c => dinsert acc p (c + 1)
  | none => dinsert acc p 1

/-- `helper.getPairStats(byteList, pairStats)`: walk the adjacent pairs of the
list in order, bumping the count of each in the accumulator dictionary. -/
def getPairStats : List Nat → List (Pair × Nat) → List (Pair × Nat)
  | a :: b :: rest, acc => getPairStats (b :: rest) (statInc acc (a, b))
  | _, acc => acc

/-- `helper.merge(oldList, pair, idx)`: left-to-right scan replacing each
non-overlapping occurrence of the pair by `idx`. -/
def merge : List Nat → Pair → Nat → List Nat
  | a :: b :: rest, p, idx =>
    if a = p.1 ∧ b = p.2 then idx :: merge rest p idx
    else a :: merge (b :: rest) p idx
  | l, _, _ => l

/-- Specification-side count of adjacent occurrences of a pair, counting every
position `i` with `(seq[i], seq[i+1]) = q`. -/
def pairCount : List Nat → Pair → Nat
  | a :: b :: rest, q => (if a = q.1 ∧ b = q.2 then 1 else 0) + pairCount (b :: rest) q
  | _, _ => 0

/-- The keys of a pair-statistics dictionary, in insertion order (this is what
iterating the Python dict yields). -/
def statKeys (stats : List (Pair × Nat)) : List Pair := stats.map Prod.fst

/-- Tail of Python `max(pairStats, key = lambda x: pairStats[x])`: fold that
replaces the current best key only on a strictly larger count, so the first
key attaining the maximum wins. -/
def maxPairAux : Pair → Nat → List (Pair × Nat) → Pair
  | p, _, [] => p
  | p, c, (q, d) :: rest => if c < d then maxPairAux q d rest else maxPairAux p c rest

/-- Python `max(pairStats, key = lambda x: pairStats[x])`; `none` models the
`ValueError` that `max` raises on an empty dictionary. -/
def maxPair : List (Pair × Nat) → Option Pair
  | [] => none
  | (p, c) :: rest => some (maxPairAux p c rest)

/-- Strict comparison of merge ranks, `none` playing `float("inf")` for pairs
absent from the merge dictionary. -/
def rankLtB : Option Nat → Option Nat → Bool
  | some a, some b => a < b
  | some _, none => true
  | none, _ => false

/-- Tail of Python `min(pairStats, key = lambda x: merge_dict.get(x, inf))`:
replace only on a strictly smaller rank, so the first key attaining the
minimum wins. -/
def minRankAux (md : List (Pair × Nat)) : Pair → List Pair → Pair
  | p, [] => p
  | p, q :: rest =>
    if rankLtB (dget md q) (dget md p) then minRankAux md q rest
    else minRankAux md p rest

/-- Python `min(pairStats, key = lambda x: merge_dict.get(x, inf))` over the
keys of the statistics dictionary. -/
def minRankPair (md : List (Pair × Nat)) : List Pair → Option Pair
  | [] => none
  | p :: rest => some (minRankAux md p rest)

/-! ## UTF-8 -/

/-- A Unicode scalar value: what a well-formed Python `str` element holds and
`str.encode("utf-8")` accepts (code points, surrogates excluded). -/
def ValidScalar (c : Nat) : Prop :=
  c < 0x110000 ∧ ¬(0xD800 ≤ c ∧ c ≤ 0xDFFF)

instance (c : Nat) : Decidable (ValidScalar c) := by
  unfold ValidScalar; infer_instance

/-- Well-formed text: every code point is a Unicode scalar value. -/
def ValidText (s : List Nat) : Prop := ∀ c ∈ s, ValidScalar c

instance (s : List Nat) : Decidable (ValidText s) := by
  unfold ValidText; infer_instance

/-- UTF-8 encoding of one scalar value. -/
def utf8EncodeChar (c : Nat) : List Nat :=
  if c < 0x80 then [c]
  else if c < 0x800 then [0xC0 + c / 0x40, 0x80 + c % 0x40]
  else if c < 0x10000 then
    [0xE0 + c / 0x1000, 0x80 + c / 0x40 % 0x40, 0x80 + c % 0x40]
  else
    [0xF0 + c / 0x40000, 0x80 + c / 0x1000 % 0x40, 0x80 + c / 0x40 % 0x40,
      0x80 + c % 0x40]

/-- `text.encode("utf-8")` as a list of byte values. -/
def utf8Encode (s : List Nat) : List Nat := (s.map utf8EncodeChar).flatten

/-- Decode one code point starting at byte `b`, with `rest` the bytes after it.
Returns the code point (`0xFFFD` for a malformed sequence) and how many bytes
of `rest` are consumed, following the maximal-subpart replacement policy of
Python `bytes.decode("utf-8", errors = "replace")`. -/
def decodeOne (b : Nat) (rest : List Nat) : Nat × Nat :=
  if b ≤ 0x7F then (b, 0)
  else if b < 0xC2 then (0xFFFD, 0)
  else if b ≤ 0xDF then
    match rest with
    | b2 :: _ =>
      if 0x80 ≤ b2 ∧ b2 ≤ 0xBF then ((b - 0xC0) * 0x40 + (b2 - 0x80), 1)
      else (0xFFFD, 0)
    | [] => (0xFFFD, 0)
  else if b ≤ 0xEF then
    let lo := if b = 0xE0 then 0xA0 else 0x80
    let hi := if b = 0xED then 0x9F else 0xBF
    match rest with
    | b2 :: r2 =>
      if lo ≤ b2 ∧ b2 ≤ hi then
        match r2 with
        | b3 :: _ =>
          if 0x80 ≤ b3 ∧ b3 ≤ 0xBF then
            ((b - 0xE0) * 0x1000 + (b2 - 0x80) * 0x40 + (b3 - 0x80), 2)
          else (0xFFFD, 1)
        | [] => (0xFFFD, 1)
      else (0xFFFD, 0)
    | [] => (0xFFFD, 0)
  else if b ≤ 0xF4 then
    let lo := if b = 0xF0 then 0x90 else 0x80
    let hi := if b = 0xF4 then 0x8F else 0xBF
    match rest with
    | b2 :: r2 =>
      if lo ≤ b2 ∧ b2 ≤ hi then
        match r2 with
        | b3 :: r3 =>
          if 0x80 ≤ b3 ∧ b3 ≤ 0xBF then
            match r3 with
            | b4 :: _ =>
              if 0x80 ≤ b4 ∧ b4 ≤ 0xBF then
                ((b - 0xF0) * 0x40000 + (b2 - 0x80) * 0x1000 + (b3 - 0x80) * 0x40
                  + (b4 - 0x80), 3)
              else (0xFFFD, 2)
            | [] => (0xFFFD, 2)
          else (0xFFFD, 1)
        | [] => (0xFFFD, 1)
      else (0xFFFD, 0)
    | [] => (0xFFFD, 0)
  else (0xFFFD, 0)

/-- Structural worker for `utf8Decode`.  Fuel bounds the number of decoded
code points; since every step consumes at least one byte, fuel equal to the
byte count is never exhausted (`utf8DecodeAux_fuel` below). -/
def utf8DecodeAux : Nat → List Nat → List Nat
  | 0, _ => []
  | _ + 1, [] => []
  | fuel + 1, b :: rest =>
    let r := decodeOne b rest
    r.1 :: utf8DecodeAux fuel (rest.drop r.2)

/-- `bytes.decode("utf-8", errors = "replace")`: total decoding, substituting
`U+FFFD` for malformed byte runs. -/
def utf8Decode (l : List Nat) : List Nat := utf8DecodeAux l.length l

/-! ## Tokenizers -/

/-- `BaseTokenizer` dictionaries: `merge_dict` maps a pair to its token ID. -/
abbrev MDict := List (Pair × Nat)

/-- `vocab_dict` maps a token ID to its byte sequence. -/
abbrev VDict := List (Nat × List Nat)

/-- The 256 identity byte entries `vocab_dict = {i: bytes([i]) for i in range(256)}`,
which is also `BaseTokenizer._build_vocab_dict` of an empty `merge_dict`. -/
def baseVocab : VDict := (List.range 256).map (fun i => (i, [i]))

/-- `BaseTokenizer._build_vocab_dict`: start from the 256 byte identities and
process the merge rules in stored order; `none` models the `KeyError` raised
when a rule references an absent symbol. -/
def buildVocabDict (md : MDict) : Option VDict :=
  md.foldlM
    (fun vd r =>
      match dget vd r.1.1, dget vd r.1.2 with
      | some l1, some l2 => some (dinsert vd r.2 (l1 ++ l2))
      | _, _ => none)
    baseVocab

/-- `BaseTokenizer.encode`: the raw UTF-8 byte values of the text. -/
def baseEncode (text : List Nat) : List Nat := utf8Encode text

/-- `b"".join(vocab_dict[t] for t in tokenIds)`; `none` models the `KeyError`
raised on a token ID absent from the vocabulary (no partial output). -/
def decodeBytes (vd : VDict) : List Nat → Option (List Nat)
  | [] => some []
  | t :: ts =>
    match dget vd t, decodeBytes vd ts with
    | some v, some rest => some (v ++ rest)
    | _, _ => none

/-- `BaseTokenizer.decode` (also `BasicTokenizer.decode` and
`AdvanceTokenizer.decode`, which repeat the same two lines): vocabulary
lookup and concatenation, then total UTF-8 decoding with replacement. -/
def decodeTokens (vd : VDict) (tokenIds : List Nat) : Option (List Nat) :=
  (decodeBytes vd tokenIds).map utf8Decode

/-- Errors a `train` call can raise: the failed `assert vocab_size >= 256`
(the spec's `InvalidConfiguration`), the `ValueError` from `max()` on an empty
pair-statistics dictionary, and a `KeyError` from a vocabulary lookup. -/
inductive TrainError
  | invalidConfiguration
  | noPairs
  | keyError
deriving DecidableEq

/-- The statistics accumulation of one training iteration:
`pairStats = {}` followed by `pairStats = getPairStats(subword, pairStats)`
over every working sequence (a single pass over the whole byte list in the
flat tokenizer). -/
def foldStats (segs : List (List Nat)) : List (Pair × Nat) :=
  segs.foldl (fun acc sw => getPairStats sw acc) []

/-- The shared training loop body, over the list of working byte sequences.
`BasicTokenizer.train` runs it with the single whole-text sequence;
`AdvanceTokenizer.train` runs it with one sequence per regex segment.  Each
iteration folds the pair statistics of every sequence into one dictionary,
takes the `max` by count (first key wins ties), merges that pair in every
sequence, and records the rule and the new vocabulary entry. -/
def trainLoop : Nat → Nat → List (List Nat) → MDict → VDict →
    Except TrainError (MDict × VDict)
  | 0, _, _, md, vd => .ok (md, vd)
  | n + 1, nextId, segs, md, vd =>
    match maxPair (foldStats segs) with
    | none => .error .noPairs
    | some p =>
      match dget vd p.1, dget vd p.2 with
      | some l1, some l2 =>
        trainLoop n (nextId + 1) (segs.map (fun sw => merge sw p nextId))
          (dinsert md p nextId) (dinsert vd nextId (l1 ++ l2))
      | _, _ => .error .keyError

/-- `BasicTokenizer.train(text, vocab_size)` on a fresh tokenizer. -/
def trainBasic (text : List Nat) (vocabSize : Nat) : Except TrainError (MDict × VDict) :=
  if vocabSize < 256 then .error .invalidConfiguration
  else trainLoop (vocabSize - 256) 256 [utf8Encode text] [] baseVocab

/-- `AdvanceTokenizer.train(text, vocab_size)` on a fresh tokenizer, with the
regex segmentation `re.findall(compiled_pattern, text)` supplied as `seg`. -/
def trainAdvance (seg : List Nat → List (List Nat)) (text : List Nat) (vocabSize : Nat) :
    Except TrainError (MDict × VDict) :=
  if vocabSize < 256 then .error .invalidConfiguration
  else trainLoop (vocabSize - 256) 256 ((seg text).map utf8Encode) [] baseVocab

/-- The `while len(byte_ids) >= 2` loop shared verbatim by
`BasicTokenizer.encode` and the per-segment body of `AdvanceTokenizer.encode`:
pick the present pair of minimal merge rank (`inf` if absent, first key wins
ties), stop if it is not in the merge dictionary, else merge and repeat.  The
fuel argument bounds the iteration count; since every executed merge removes
at least one element, fuel equal to the sequence length is never exhausted
before the loop exits (`encodeLoop_fuel` below). -/
def encodeLoop (md : MDict) : Nat → List Nat → List Nat
  | 0, ids => ids
  | fuel + 1, ids =>
    if ids.length < 2 then ids
    else
      match minRankPair md (statKeys (getPairStats ids [])) with
      | none => ids
      | some p =>
        match dget md p with
        | none => ids
        | some idx => encodeLoop md fuel (merge ids p idx)

/-- `BasicTokenizer.encode(text)`. -/
def basicEncode (md : MDict) (text : List Nat) : List Nat :=
  encodeLoop md (utf8Encode text).length (utf8Encode text)

/-- `AdvanceTokenizer.encode(text)`: encode every regex segment independently
with the same loop and concatenate the results in segment order. -/
def advanceEncode (seg : List Nat → List (List Nat)) (md : MDict) (text : List Nat) :
    List Nat :=
  ((seg text).map (fun sub => encodeLoop md (utf8Encode sub).length (utf8Encode sub))).flatten

instance {ε α : Type} [DecidableEq ε] [DecidableEq α] : DecidableEq (Except ε α) := fun
  | .ok a, .ok b =>
    if h : a = b then .isTrue (by rw [h])
    else .isFalse (by intro hc; cases hc; exact h rfl)
  | .ok _, .error _ => .isFalse (by intro h; cases h)
  | .error _, .ok _ => .isFalse (by intro h; cases h)
  | .error e, .error f =>
    if h : e = f then .isTrue (by rw [h])
    else .isFalse (by intro hc; cases hc; exact h rfl)

/-! ## Dictionary lemmas -/

theorem dget_dinsert {K V : Type} [DecidableEq K] (d : List (K × V)) (k k2 : K) (v : V) :
    dget (dinsert d k v) k2 = if k2 = k then some v else dget d k2 := by
  induction d with
  | nil =>
    rcases eq_or_ne k2 k with h | h
    · subst h; simp [dinsert, dget]
    · simp [dinsert, dget, h, Ne.symm h]
  | cons hd tl ih =>
    obtain ⟨k1, v1⟩ := hd
    rcases eq_or_ne k1 k with h1 | h1
    · subst h1
      rcases eq_or_ne k2 k1 with h2 | h2
      · subst h2; simp [dinsert, dget]
      · simp [dinsert, dget, h2, Ne.symm h2]
    · rcases eq_or_ne k2 k1 with h2 | h2
      · subst h2
        simp [dinsert, dget, h1]
      · simp [dinsert, dget, h1, Ne.symm h2, ih, h2]

theorem dget_eq_none_iff {K V : Type} [DecidableEq K] (d : List (K × V)) (k : K) :
    dget d k = none ↔ k ∉ d.map Prod.fst := by
  induction d with
  | nil => simp [dget]
  | cons hd tl ih =>
    obtain ⟨k1, v1⟩ := hd
    rcases eq_or_ne k1 k with h | h
    · subst h; simp [dget]
    · simp [dget, h, Ne.symm h, ih]

theorem dget_isSome_iff {K V : Type} [DecidableEq K] (d : List (K × V)) (k : K) :
    (dget d k).isSome = true ↔ k ∈ d.map Prod.fst := by
  rw [← not_iff_not, ← dget_eq_none_iff (d := d) (k := k)]
  cases dget d k <;> simp

theorem dinsert_of_not_mem {K V : Type} [DecidableEq K] (d : List (K × V)) (k : K) (v : V)
    (h : dget d k = none) : dinsert d k v = d ++ [(k, v)] := by
  induction d with
  | nil => simp [dinsert]
  | cons hd tl ih =>
    obtain ⟨k1, v1⟩ := hd
    by_cases h1 : k1 = k
    · simp [dget, h1] at h
    · simp [dget, h1] at h
      simp [dinsert, h1, ih h]

theorem length_dinsert_of_not_mem {K V : Type} [DecidableEq K] (d : List (K × V)) (k : K)
    (v : V) (h : dget d k = none) : (dinsert d k v).length = d.length + 1 := by
  rw [dinsert_of_not_mem d k v h]
  simp

theorem dget_mem {K V : Type} [DecidableEq K] {d : List (K × V)} {k : K} {v : V}
    (h : dget d k = some v) : (k, v) ∈ d := by
  induction d with
  | nil => simp [dget] at h
  | cons hd tl ih =>
    obtain ⟨k1, v1⟩ := hd
    by_cases h1 : k1 = k
    · subst h1; simp [dget] at h; simp [h]
    · simp [dget, h1] at h
      exact List.mem_cons_of_mem _ (ih h)

/-! ## `baseVocab` lemmas -/

theorem dget_append {K V : Type} [DecidableEq K] (d1 d2 : List (K × V)) (k : K) :
    dget (d1 ++ d2) k =
      match dget d1 k with
      | some v => some v
      | none => dget d2 k := by
  induction d1 with
  | nil => simp [dget]
  | cons hd tl ih =>
    obtain ⟨k1, v1⟩ := hd
    rcases eq_or_ne k1 k with h | h
    · subst h; simp [dget]
    · simp [dget, h, ih]

theorem dget_range_map {V : Type} (f : Nat → V) (n i : Nat) :
    dget ((List.range n).map (fun j => (j, f j))) i =
      if i < n then some (f i) else none := by
  induction n with
  | zero => simp [dget]
  | succ m ih =>
    rw [List.range_succ]
    simp only [List.map_append, List.map_cons, List.map_nil]
    rw [dget_append, ih]
    rcases lt_trichotomy i m with h | h | h
    · simp [h, (show i < m + 1 by omega)]
    · subst h; simp [dget]
    · simp [(show ¬ i < m by omega), (show ¬ i < m + 1 by omega), dget,
        (show ¬ m = i by omega)]

theorem dget_baseVocab (i : Nat) :
    dget baseVocab i = if i < 256 then some [i] else none := by
  rw [baseVocab, dget_range_map]

/-! ## Pair statistics lemmas -/

theorem dgetD_statInc (acc : List (Pair × Nat)) (p q : Pair) :
    dgetD (statInc acc p) q 0 = dgetD acc q 0 + if q = p then 1 else 0 := by
  unfold statInc
  cases h : dget acc p with
  | none =>
    by_cases hq : q = p <;> simp [dgetD, dget_dinsert, hq, h]
  | some c =>
    by_cases hq : q = p <;> simp [dgetD, dget_dinsert, hq, h]

theorem dget_statInc_none (acc : List (Pair × Nat)) (p q : Pair) :
    dget (statInc acc p) q = none ↔ dget acc q = none ∧ q ≠ p := by
  unfold statInc
  cases h : dget acc p with
  | none =>
    by_cases hq : q = p <;> simp [dget_dinsert, hq, h]
  | some c =>
    by_cases hq : q = p <;> simp [dget_dinsert, hq, h]

theorem getPairStats_dgetD (l : List Nat) (acc : List (Pair × Nat)) (q : Pair) :
    dgetD (getPairStats l acc) q 0 = dgetD acc q 0 + pairCount l q := by
  induction l generalizing acc with
  | nil => simp [getPairStats, pairCount]
  | cons a tl ih =>
    cases tl with
    | nil => simp [getPairStats, pairCount]
    | cons b rest =>
      rw [getPairStats, ih, dgetD_statInc, pairCount]
      have hq : (q = (a, b)) ↔ (a = q.1 ∧ b = q.2) := by
        constructor
        · rintro rfl; exact ⟨rfl, rfl⟩
        · rintro ⟨h1, h2⟩; cases q; simp_all
      by_cases h : a = q.1 ∧ b = q.2
      · simp only [hq, if_pos h]
        omega
      · simp only [hq, if_neg h]
        omega

theorem getPairStats_none (l : List Nat) (acc : List (Pair × Nat)) (q : Pair) :
    dget (getPairStats l acc) q = none ↔ dget acc q = none ∧ pairCount l q = 0 := by
  induction l generalizing acc with
  | nil => simp [getPairStats, pairCount]
  | cons a tl ih =>
    cases tl with
    | nil => simp [getPairStats, pairCount]
    | cons b rest =>
      rw [getPairStats, ih, dget_statInc_none, pairCount]
      have hq : (q = (a, b)) ↔ (a = q.1 ∧ b = q.2) := by
        constructor
        · rintro rfl; exact ⟨rfl, rfl⟩
        · rintro ⟨h1, h2⟩; cases q; simp_all
      by_cases h : a = q.1 ∧ b = q.2
      · rw [if_pos h]
        constructor
        · rintro ⟨⟨h1, h2⟩, h3⟩
          exact absurd (hq.mpr h) h2
        · rintro ⟨h1, h2⟩
          exact absurd h2 (by omega)
      · rw [if_neg h]
        constructor
        · rintro ⟨⟨h1, h2⟩, h3⟩
          exact ⟨h1, by omega⟩
        · rintro ⟨h1, h2⟩
          exact ⟨⟨h1, fun hc => h (hq.mp hc)⟩, by omega⟩

theorem mem_statKeys_iff (s : List (Pair × Nat)) (q : Pair) :
    q ∈ statKeys s ↔ dget s q ≠ none := by
  rw [statKeys, Ne, dget_eq_none_iff, not_not]

theorem pairCount_pos_iff_mem_statKeys (l : List Nat) (q : Pair) :
    q ∈ statKeys (getPairStats l []) ↔ 0 < pairCount l q := by
  rw [mem_statKeys_iff, Ne, getPairStats_none]
  simp [dget]
  omega

/-! ## `merge` lemmas -/

theorem pairCount_cons (a : Nat) (l : List Nat) (q : Pair) :
    pairCount (a :: l) q =
      (match l.head? with
        | some b => if a = q.1 ∧ b = q.2 then 1 else 0
        | none => 0) + pairCount l q := by
  cases l with
  | nil => simp [pairCount]
  | cons b rest => rfl

theorem merge_length_le (l : List Nat) (p : Pair) (idx : Nat) :
    (merge l p idx).length ≤ l.length := by
  induction l, p, idx using merge.induct with
  | case1 a b rest p idx h ih =>
    simp only [merge, if_pos h, List.length_cons]
    simp at ih ⊢
    omega
  | case2 a b rest p idx h ih =>
    simp only [merge, if_neg h, List.length_cons]
    simp at ih ⊢
    omega
  | case3 l p idx h => simp [merge]

theorem merge_length_lt (l : List Nat) (p : Pair) (idx : Nat) :
    0 < pairCount l p → (merge l p idx).length < l.length := by
  induction l, p, idx using merge.induct with
  | case1 a b rest p idx h ih =>
    intro hc
    rw [merge, if_pos h]
    simp only [List.length_cons]
    have := merge_length_le rest p idx
    omega
  | case2 a b rest p idx h ih =>
    intro hc
    rw [merge, if_neg h]
    simp only [List.length_cons]
    have hc2 : 0 < pairCount (b :: rest) p := by
      rw [pairCount, if_neg h] at hc
      omega
    have := ih hc2
    simp only [List.length_cons] at this
    omega
  | case3 l p idx h =>
    intro hc
    exfalso
    match l, h with
    | [], _ => simp [pairCount] at hc
    | [a], _ => simp [pairCount] at hc
    | a :: b :: rest, h => exact h a b rest rfl

theorem merge_head (l : List Nat) (p : Pair) (idx : Nat) :
    (merge l p idx).head? = l.head? ∨ (merge l p idx).head? = some idx := by
  match l with
  | [] => exact Or.inl rfl
  | [a] => exact Or.inl rfl
  | a :: b :: rest =>
    rw [merge]
    by_cases h : a = p.1 ∧ b = p.2
    · rw [if_pos h]; exact Or.inr rfl
    · rw [if_neg h]; exact Or.inl rfl

theorem merge_mem (l : List Nat) (p : Pair) (idx : Nat) (x : Nat) :
    x ∈ merge l p idx → x ∈ l ∨ x = idx := by
  induction l, p, idx using merge.induct with
  | case1 a b rest p idx h ih =>
    intro hx
    rw [merge, if_pos h] at hx
    rcases List.mem_cons.mp hx with hx | hx
    · exact Or.inr hx
    · rcases ih hx with h2 | h2
      · exact Or.inl (by simp [h2])
      · exact Or.inr h2
  | case2 a b rest p idx h ih =>
    intro hx
    rw [merge, if_neg h] at hx
    rcases List.mem_cons.mp hx with hx | hx
    · exact Or.inl (by simp [hx])
    · rcases ih hx with h2 | h2
      · refine Or.inl ?_
        simp only [List.mem_cons] at h2 ⊢
        tauto
      · exact Or.inr h2
  | case3 l p idx h =>
    intro hx
    match l, h with
    | [], _ => exact Or.inl hx
    | [a], _ => exact Or.inl hx
    | a :: b :: rest, h => exact (h a b rest rfl).elim

theorem merge_pairCount_self (l : List Nat) (p : Pair) (idx : Nat)
    (h1 : p.1 ≠ idx) (h2 : p.2 ≠ idx) : pairCount (merge l p idx) p = 0 := by
  induction l, p, idx using merge.induct with
  | case1 a b rest p idx h ih =>
    rw [merge, if_pos h, pairCount_cons, ih h1 h2]
    cases hh : (merge rest p idx).head? with
    | none => simp [hh]
    | some v => simp [hh, (show ¬(idx = p.1 ∧ v = p.2) from fun hc => h1 hc.1.symm)]
  | case2 a b rest p idx h ih =>
    rw [merge, if_neg h, pairCount_cons, ih h1 h2]
    rcases merge_head (b :: rest) p idx with hh | hh <;> rw [hh]
    · simp [h]
    · simp [(show ¬(a = p.1 ∧ idx = p.2) from fun hc => h2 hc.2.symm)]
  | case3 l p idx h =>
    match l, h with
    | [], _ => simp [merge, pairCount]
    | [a], _ => simp [merge, pairCount]
    | a :: b :: rest, h => exact (h a b rest rfl).elim

theorem merge_pairCount_other (l : List Nat) (p q : Pair) (idx : Nat)
    (h1 : q.1 ≠ idx) (h2 : q.2 ≠ idx) :
    pairCount l q = 0 → pairCount (merge l p idx) q = 0 := by
  induction l, p, idx using merge.induct with
  | case1 a b rest p idx h ih =>
    intro h0
    have hr : pairCount rest q = 0 := by
      rw [pairCount, pairCount_cons] at h0
      omega
    rw [merge, if_pos h, pairCount_cons, ih h1 h2 hr]
    cases hh : (merge rest p idx).head? with
    | none => simp [hh]
    | some v => simp [hh, (show ¬(idx = q.1 ∧ v = q.2) from fun hc => h1 hc.1.symm)]
  | case2 a b rest p idx h ih =>
    intro h0
    have hbr : pairCount (b :: rest) q = 0 := by
      rw [pairCount] at h0
      omega
    have hab : ¬(a = q.1 ∧ b = q.2) := by
      rw [pairCount] at h0
      by_cases hc : a = q.1 ∧ b = q.2
      · rw [if_pos hc] at h0
        omega
      · exact hc
    rw [merge, if_neg h, pairCount_cons, ih h1 h2 hbr]
    rcases merge_head (b :: rest) p idx with hh | hh <;> rw [hh]
    · simp [hab]
    · simp [(show ¬(a = q.1 ∧ idx = q.2) from fun hc => h2 hc.2.symm)]
  | case3 l p idx h =>
    intro h0
    match l, h with
    | [], _ => simpa [merge] using h0
    | [a], _ => simpa [merge] using h0
    | a :: b :: rest, h => exact (h a b rest rfl).elim

theorem decodeBytes_merge (vd : VDict) (l : List Nat) (p : Pair) (idx : Nat)
    (l1 l2 : List Nat) (hp1 : dget vd p.1 = some l1) (hp2 : dget vd p.2 = some l2)
    (hidx : dget vd idx = some (l1 ++ l2)) :
    decodeBytes vd (merge l p idx) = decodeBytes vd l := by
  induction l, p, idx using merge.induct with
  | case1 a b rest p idx h ih =>
    obtain ⟨ha, hb⟩ := h
    subst ha; subst hb
    rw [merge, if_pos ⟨rfl, rfl⟩]
    show decodeBytes vd (idx :: merge rest _ idx) = _
    rw [decodeBytes, decodeBytes, decodeBytes, hidx, hp1, hp2, ih hp1 hp2 hidx]
    cases decodeBytes vd rest <;> simp

  | case2 a b rest p idx h ih =>
    rw [merge, if_neg h, decodeBytes, decodeBytes, ih hp1 hp2 hidx]
  | case3 l p idx h =>
    match l, h with
    | [], _ => rfl
    | [a], _ => rfl
    | a :: b :: rest, h => exact (h a b rest rfl).elim

/-! ## Selection lemmas: Python `max` / `min` with a key function keep the
first element attaining the extremum. -/

/-- Interpret an optional merge rank as an extended natural, `none` being
`float("inf")`. -/
def toRank : Option Nat → WithTop Nat
  | some a => (a : WithTop Nat)
  | none => ⊤

theorem rankLtB_iff (a b : Option Nat) : rankLtB a b = true ↔ toRank a < toRank b := by
  cases a <;> cases b <;> simp [rankLtB, toRank]

theorem maxPairAux_mem (p : Pair) (c : Nat) (rest : List (Pair × Nat)) :
    maxPairAux p c rest ∈ p :: statKeys rest := by
  induction rest generalizing p c with
  | nil => simp [maxPairAux]
  | cons hd tl ih =>
    obtain ⟨q, d⟩ := hd
    rw [maxPairAux]
    by_cases h : c < d
    · rw [if_pos h]
      have := ih q d
      simp only [statKeys, List.map_cons, List.mem_cons] at this ⊢
      tauto
    · rw [if_neg h]
      have := ih p c
      simp only [statKeys, List.map_cons, List.mem_cons] at this ⊢
      tauto

theorem maxPair_mem (s : List (Pair × Nat)) (p : Pair) (h : maxPair s = some p) :
    p ∈ statKeys s := by
  cases s with
  | nil => simp [maxPair] at h
  | cons hd tl =>
    obtain ⟨q, c⟩ := hd
    rw [maxPair] at h
    have hp : p = maxPairAux q c tl := (Option.some.inj h).symm
    rw [hp]
    simpa [statKeys] using maxPairAux_mem q c tl

theorem minRankAux_mem (md : MDict) (p : Pair) (l : List Pair) :
    minRankAux md p l ∈ p :: l := by
  induction l generalizing p with
  | nil => simp [minRankAux]
  | cons x xs ih =>
    rw [minRankAux]
    by_cases h : rankLtB (dget md x) (dget md p) = true
    · rw [if_pos h]
      have := ih x
      simp only [List.mem_cons] at this ⊢
      tauto
    · rw [if_neg h]
      have := ih p
      simp only [List.mem_cons] at this ⊢
      tauto

theorem minRankAux_le_seed (md : MDict) (l : List Pair) (p : Pair) :
    toRank (dget md (minRankAux md p l)) ≤ toRank (dget md p) := by
  induction l generalizing p with
  | nil => simp [minRankAux]
  | cons x xs ih =>
    rw [minRankAux]
    by_cases h : rankLtB (dget md x) (dget md p) = true
    · rw [if_pos h]
      exact le_trans (ih x) (le_of_lt ((rankLtB_iff _ _).mp h))
    · rw [if_neg h]
      exact ih p

theorem minRankAux_le_mem (md : MDict) (l : List Pair) (p q : Pair) (hq : q ∈ l) :
    toRank (dget md (minRankAux md p l)) ≤ toRank (dget md q) := by
  induction l generalizing p with
  | nil => simp at hq
  | cons x xs ih =>
    rw [minRankAux]
    by_cases h : rankLtB (dget md x) (dget md p) = true
    · rw [if_pos h]
      rcases List.mem_cons.mp hq with rfl | hq2
      · exact minRankAux_le_seed md xs q
      · exact ih x hq2
    · rw [if_neg h]
      rcases List.mem_cons.mp hq with rfl | hq2
      · have h2 : ¬ toRank (dget md q) < toRank (dget md p) := by
          rw [← rankLtB_iff]
          simpa using h
        exact le_trans (minRankAux_le_seed md xs p) (not_lt.mp h2)
      · exact ih p hq2

theorem minRankAux_min (md : MDict) (p : Pair) (l : List Pair) (q : Pair)
    (hq : q ∈ p :: l) :
    toRank (dget md (minRankAux md p l)) ≤ toRank (dget md q) := by
  rcases List.mem_cons.mp hq with rfl | hq2
  · exact minRankAux_le_seed md l q
  · exact minRankAux_le_mem md l p q hq2

theorem minRankPair_mem (md : MDict) (l : List Pair) (p : Pair)
    (h : minRankPair md l = some p) : p ∈ l := by
  cases l with
  | nil => simp [minRankPair] at h
  | cons x xs =>
    rw [minRankPair] at h
    have hp : p = minRankAux md x xs := (Option.some.inj h).symm
    rw [hp]
    exact minRankAux_mem md x xs

theorem minRankPair_min (md : MDict) (l : List Pair) (p : Pair)
    (h : minRankPair md l = some p) (q : Pair) (hq : q ∈ l) :
    toRank (dget md p) ≤ toRank (dget md q) := by
  cases l with
  | nil => simp [minRankPair] at h
  | cons x xs =>
    rw [minRankPair] at h
    have hp : p = minRankAux md x xs := (Option.some.inj h).symm
    rw [hp]
    exact minRankAux_min md x xs q hq

/-! ## `encodeLoop` lemmas -/

/-- The merge dictionary and the vocabulary fit together: every recorded rule
has vocabulary entries for its components, and the entry of the merged token
is their concatenation. -/
def MergesCompat (md : MDict) (vd : VDict) : Prop :=
  ∀ p idx, dget md p = some idx →
    ∃ l1 l2, dget vd p.1 = some l1 ∧ dget vd p.2 = some l2 ∧
      dget vd idx = some (l1 ++ l2)

/-- Unfolding `encodeLoop` when the sequence is already shorter than 2. -/
theorem encodeLoop_short (md : MDict) (fuel : Nat) (ids : List Nat)
    (h : ids.length < 2) : encodeLoop md fuel ids = ids := by
  cases fuel with
  | zero => rfl
  | succ n => rw [encodeLoop, if_pos h]

/-- Unfolding `encodeLoop` when the selection comes up empty. -/
theorem encodeLoop_sel_none (md : MDict) (fuel : Nat) (ids : List Nat)
    (h : ¬ ids.length < 2)
    (hsel : minRankPair md (statKeys (getPairStats ids [])) = none) :
    encodeLoop md (fuel + 1) ids = ids := by
  rw [encodeLoop, if_neg h, hsel]

/-- Unfolding `encodeLoop` when a pair was selected: the loop breaks if the
pair is not in the merge dictionary, else merges and continues. -/
theorem encodeLoop_sel_some (md : MDict) (fuel : Nat) (ids : List Nat) (p : Pair)
    (h : ¬ ids.length < 2)
    (hsel : minRankPair md (statKeys (getPairStats ids [])) = some p) :
    encodeLoop md (fuel + 1) ids =
      match dget md p with
      | none => ids
      | some idx => encodeLoop md fuel (merge ids p idx) := by
  rw [encodeLoop, if_neg h, hsel]

theorem encodeLoop_decodeBytes (md : MDict) (vd : VDict) (h : MergesCompat md vd)
    (fuel : Nat) (ids : List Nat) :
    decodeBytes vd (encodeLoop md fuel ids) = decodeBytes vd ids := by
  induction fuel generalizing ids with
  | zero => rfl
  | succ n ih =>
    by_cases h2 : ids.length < 2
    · rw [encodeLoop_short md (n + 1) ids h2]
    · cases hsel : minRankPair md (statKeys (getPairStats ids [])) with
      | none => rw [encodeLoop_sel_none md n ids h2 hsel]
      | some p =>
        rw [encodeLoop_sel_some md n ids p h2 hsel]
        cases hidx : dget md p with
        | none => rfl
        | some idx =>
          obtain ⟨l1, l2, hv1, hv2, hv3⟩ := h p idx hidx
          show decodeBytes vd (encodeLoop md n (merge ids p idx)) = decodeBytes vd ids
          rw [ih, decodeBytes_merge vd ids p idx l1 l2 hv1 hv2 hv3]

theorem encodeLoop_nilMD (fuel : Nat) (ids : List Nat) :
    encodeLoop [] fuel ids = ids := by
  cases fuel with
  | zero => rfl
  | succ n =>
    by_cases h2 : ids.length < 2
    · exact encodeLoop_short [] (n + 1) ids h2
    · cases hsel : minRankPair [] (statKeys (getPairStats ids [])) with
      | none => exact encodeLoop_sel_none [] n ids h2 hsel
      | some p =>
        rw [encodeLoop_sel_some [] n ids p h2 hsel]
        rfl

/-- Fuel irrelevance: any fuel at least the sequence length computes the same
result, so the fuel in `basicEncode`/`advanceEncode` never cuts the Python
`while` loop short. -/
theorem encodeLoop_fuel (md : MDict) (f1 f2 : Nat) (ids : List Nat)
    (h1 : ids.length ≤ f1) (h2 : ids.length ≤ f2) :
    encodeLoop md f1 ids = encodeLoop md f2 ids := by
  induction f1 generalizing ids f2 with
  | zero =>
    have hlen : ids.length < 2 := by omega
    cases f2 with
    | zero => rfl
    | succ m =>
      show ids = encodeLoop md (m + 1) ids
      rw [encodeLoop, if_pos hlen]
  | succ n ih =>
    by_cases hlen : ids.length < 2
    · rw [encodeLoop_short md (n + 1) ids hlen, encodeLoop_short md f2 ids hlen]
    · cases f2 with
      | zero => omega
      | succ m =>
        cases hsel : minRankPair md (statKeys (getPairStats ids [])) with
        | none =>
          rw [encodeLoop_sel_none md n ids hlen hsel,
            encodeLoop_sel_none md m ids hlen hsel]
        | some p =>
          rw [encodeLoop_sel_some md n ids p hlen hsel,
            encodeLoop_sel_some md m ids p hlen hsel]
          cases hidx : dget md p with
          | none => rfl
          | some idx =>
            have hp : p ∈ statKeys (getPairStats ids []) :=
              minRankPair_mem md _ p hsel
            have hc : 0 < pairCount ids p :=
              (pairCount_pos_iff_mem_statKeys ids p).mp hp
            have hlt := merge_length_lt ids p idx hc
            show encodeLoop md n (merge ids p idx) = encodeLoop md m (merge ids p idx)
            apply ih
            · omega
            · omega

/-! ## `decodeBytes` lemmas -/

theorem decodeBytes_lt256 (vd : VDict) (ids : List Nat)
    (hbase : ∀ i, i < 256 → dget vd i = some [i]) (hids : ∀ b ∈ ids, b < 256) :
    decodeBytes vd ids = some ids := by
  induction ids with
  | nil => rfl
  | cons b rest ih =>
    rw [decodeBytes, hbase b (hids b (by simp)), ih (fun x hx => hids x (by simp [hx]))]
    rfl

theorem decodeBytes_append (vd : VDict) (l1 l2 b2 : List Nat)
    (h2 : decodeBytes vd l2 = some b2) :
    ∀ b1, decodeBytes vd l1 = some b1 →
      decodeBytes vd (l1 ++ l2) = some (b1 ++ b2) := by
  induction l1 with
  | nil =>
    intro b1 h1
    rw [decodeBytes] at h1
    cases h1
    simpa using h2
  | cons t ts ih =>
    intro b1 h1
    rw [decodeBytes] at h1
    cases hv : dget vd t with
    | none => rw [hv] at h1; cases h1
    | some v =>
      rw [hv] at h1
      cases hr : decodeBytes vd ts with
      | none => rw [hr] at h1; cases h1
      | some r =>
        rw [hr] at h1
        cases h1
        rw [List.cons_append, decodeBytes, hv, ih r hr]
        simp

/-! ## UTF-8 lemmas -/

theorem utf8DecodeAux_fuel (f1 : Nat) :
    ∀ (f2 : Nat) (l : List Nat), l.length ≤ f1 → l.length ≤ f2 →
      utf8DecodeAux f1 l = utf8DecodeAux f2 l := by
  induction f1 with
  | zero =>
    intro f2 l h1 h2
    have hl : l = [] := List.length_eq_zero.mp (by omega)
    subst hl
    cases f2 <;> rfl
  | succ n ih =>
    intro f2 l h1 h2
    cases l with
    | nil => cases f2 <;> rfl
    | cons b rest =>
      cases f2 with
      | zero => simp at h2
      | succ m =>
        simp only [List.length_cons] at h1 h2
        simp only [utf8DecodeAux]
        congr 1
        exact ih m (rest.drop (decodeOne b rest).2)
          (by simp only [List.length_drop]; omega)
          (by simp only [List.length_drop]; omega)

theorem utf8Decode_cons (b : Nat) (rest : List Nat) :
    utf8Decode (b :: rest) =
      (decodeOne b rest).1 :: utf8Decode (rest.drop (decodeOne b rest).2) := by
  show utf8DecodeAux (b :: rest).length (b :: rest) = _
  rw [List.length_cons]
  simp only [utf8DecodeAux]
  congr 1
  exact utf8DecodeAux_fuel rest.length (rest.drop (decodeOne b rest).2).length
    (rest.drop (decodeOne b rest).2) (by simp only [List.length_drop]; omega)
    (le_refl _)

theorem utf8Encode_cons (c : Nat) (s : List Nat) :
    utf8Encode (c :: s) = utf8EncodeChar c ++ utf8Encode s := by
  simp [utf8Encode]

theorem utf8Encode_append (s t : List Nat) :
    utf8Encode (s ++ t) = utf8Encode s ++ utf8Encode t := by
  simp [utf8Encode]

theorem utf8EncodeChar_lt256 (c : Nat) (hc : c < 0x110000) :
    ∀ b ∈ utf8EncodeChar c, b < 256 := by
  intro b hb
  rw [utf8EncodeChar] at hb
  split_ifs at hb with h1 h2 h3
  · simp only [List.mem_singleton] at hb
    omega
  · simp only [List.mem_cons, List.not_mem_nil, or_false] at hb
    rcases hb with rfl | rfl <;> omega
  · simp only [List.mem_cons, List.not_mem_nil, or_false] at hb
    rcases hb with rfl | rfl | rfl <;> omega
  · simp only [List.mem_cons, List.not_mem_nil, or_false] at hb
    rcases hb with rfl | rfl | rfl | rfl <;> omega

theorem utf8Encode_lt256 (s : List Nat) (hs : ValidText s) :
    ∀ b ∈ utf8Encode s, b < 256 := by
  induction s with
  | nil => simp [utf8Encode]
  | cons c cs ih =>
    intro b hb
    rw [utf8Encode_cons] at hb
    rcases List.mem_append.mp hb with hb | hb
    · exact utf8EncodeChar_lt256 c (hs c (by simp)).1 b hb
    · exact ih (fun x hx => hs x (by simp [hx])) b hb

theorem decodeOne_enc1 (c : Nat) (h1 : c < 0x80) (tail : List Nat) :
    decodeOne c tail = (c, 0) := by
  simp only [decodeOne]
  rw [if_pos (by omega)]

theorem decodeOne_enc2 (c : Nat) (h1 : ¬ c < 0x80) (h2 : c < 0x800) (tail : List Nat) :
    decodeOne (0xC0 + c / 0x40) ((0x80 + c % 0x40) :: tail) = (c, 1) := by
  simp only [decodeOne]
  split_ifs
  all_goals try simp only [Prod.mk.injEq, and_true]
  all_goals omega

theorem decodeOne_enc3 (c : Nat) (h1 : ¬ c < 0x800) (h2 : c < 0x10000)
    (hsur : ¬(0xD800 ≤ c ∧ c ≤ 0xDFFF)) (tail : List Nat) :
    decodeOne (0xE0 + c / 0x1000)
      ((0x80 + c / 0x40 % 0x40) :: (0x80 + c % 0x40) :: tail) = (c, 2) := by
  simp only [decodeOne]
  split_ifs
  all_goals try simp only [Prod.mk.injEq, and_true]
  all_goals omega

theorem decodeOne_enc4 (c : Nat) (h1 : ¬ c < 0x10000) (h2 : c < 0x110000)
    (tail : List Nat) :
    decodeOne (0xF0 + c / 0x40000)
      ((0x80 + c / 0x1000 % 0x40) :: (0x80 + c / 0x40 % 0x40) ::
        (0x80 + c % 0x40) :: tail) = (c, 3) := by
  simp only [decodeOne]
  split_ifs
  all_goals try simp only [Prod.mk.injEq, and_true]
  all_goals omega

/-- Decoding one encoded scalar at the front of a byte stream recovers the
scalar and consumes exactly its encoding. -/
theorem utf8Decode_char_append (c : Nat) (hv : ValidScalar c) (tail : List Nat) :
    utf8Decode (utf8EncodeChar c ++ tail) = c :: utf8Decode tail := by
  obtain ⟨hlt, hsur⟩ := hv
  by_cases h1 : c < 0x80
  · have e : utf8EncodeChar c = [c] := by rw [utf8EncodeChar, if_pos h1]
    rw [e, List.cons_append, List.nil_append, utf8Decode_cons,
      decodeOne_enc1 c h1 tail]
    simp
  · by_cases h2 : c < 0x800
    · have e : utf8EncodeChar c = [0xC0 + c / 0x40, 0x80 + c % 0x40] := by
        rw [utf8EncodeChar, if_neg h1, if_pos h2]
      rw [e]
      simp only [List.cons_append, List.nil_append]
      rw [utf8Decode_cons, decodeOne_enc2 c h1 h2 tail]
      simp
    · by_cases h3 : c < 0x10000
      · have e : utf8EncodeChar c =
            [0xE0 + c / 0x1000, 0x80 + c / 0x40 % 0x40, 0x80 + c % 0x40] := by
          rw [utf8EncodeChar, if_neg h1, if_neg h2, if_pos h3]
        rw [e]
        simp only [List.cons_append, List.nil_append]
        rw [utf8Decode_cons, decodeOne_enc3 c h2 h3 hsur tail]
        simp
      · have e : utf8EncodeChar c =
            [0xF0 + c / 0x40000, 0x80 + c / 0x1000 % 0x40, 0x80 + c / 0x40 % 0x40,
              0x80 + c % 0x40] := by
          rw [utf8EncodeChar, if_neg h1, if_neg h2, if_neg h3]
        rw [e]
        simp only [List.cons_append, List.nil_append]
        rw [utf8Decode_cons, decodeOne_enc4 c h3 hlt tail]
        simp

/-- UTF-8 round trip on well-formed text. -/
theorem utf8_roundTrip (s : List Nat) (hs : ValidText s) :
    utf8Decode (utf8Encode s) = s := by
  induction s with
  | nil => rfl
  | cons c cs ih =>
    rw [utf8Encode_cons, utf8Decode_char_append c (hs c (by simp)),
      ih (fun x hx => hs x (by simp [hx]))]

/-! ## Training invariant -/

theorem foldStats_gen_none (segs : List (List Nat)) (acc : List (Pair × Nat)) (q : Pair) :
    dget (segs.foldl (fun acc sw => getPairStats sw acc) acc) q = none ↔
      dget acc q = none ∧ ∀ sw ∈ segs, pairCount sw q = 0 := by
  induction segs generalizing acc with
  | nil => simp
  | cons sw rest ih =>
    rw [List.foldl_cons, ih, getPairStats_none]
    constructor
    · rintro ⟨⟨h1, h2⟩, h3⟩
      refine ⟨h1, ?_⟩
      intro sw2 hsw2
      rcases List.mem_cons.mp hsw2 with rfl | hsw2
      · exact h2
      · exact h3 sw2 hsw2
    · rintro ⟨h1, h2⟩
      exact ⟨⟨h1, h2 sw (by simp)⟩, fun sw2 hsw2 => h2 sw2 (by simp [hsw2])⟩

theorem mem_foldStats_keys (segs : List (List Nat)) (q : Pair) :
    q ∈ statKeys (foldStats segs) ↔ ∃ sw ∈ segs, 0 < pairCount sw q := by
  rw [mem_statKeys_iff, Ne, foldStats, foldStats_gen_none]
  simp only [dget, true_and]
  constructor
  · intro h
    by_contra hc
    push_neg at hc
    exact h (fun sw hsw => by have := hc sw hsw; omega)
  · rintro ⟨sw, hsw, hpos⟩ h
    have := h sw hsw
    omega

theorem pairCount_pos_mem (l : List Nat) (q : Pair) (h : 0 < pairCount l q) :
    q.1 ∈ l ∧ q.2 ∈ l := by
  induction l with
  | nil => simp [pairCount] at h
  | cons a tl ih =>
    cases tl with
    | nil => simp [pairCount] at h
    | cons b rest =>
      rw [pairCount] at h
      by_cases hab : a = q.1 ∧ b = q.2
      · exact ⟨by simp [hab.1.symm], by simp [hab.2.symm]⟩
      · rw [if_neg hab] at h
        have := ih (by omega)
        exact ⟨by simp [this.1], by simp [this.2]⟩

/-- `foldlM` over an appended list, specialised to `Option`. -/
theorem foldlM_append_option {α β : Type} (f : β → α → Option β) (l1 l2 : List α)
    (b : β) :
    (l1 ++ l2).foldlM f b =
      match l1.foldlM f b with
      | some b2 => l2.foldlM f b2
      | none => none := by
  induction l1 generalizing b with
  | nil => simp
  | cons x xs ih =>
    rw [List.cons_append, List.foldlM_cons, List.foldlM_cons]
    cases f b x with
    | none => rfl
    | some b2 => simpa using ih b2

/-- Everything the training loop preserves, tying the working sequences, the
merge dictionary and the vocabulary together. -/
structure TrainInv (nextId : Nat) (segs : List (List Nat)) (md : MDict) (vd : VDict) :
    Prop where
  next_ge : 256 ≤ nextId
  base_ok : ∀ i, i < 256 → dget vd i = some [i]
  segs_lt : ∀ sw ∈ segs, ∀ x ∈ sw, x < nextId
  md_lt : ∀ p idx, dget md p = some idx →
    p.1 < nextId ∧ p.2 < nextId ∧ 256 ≤ idx ∧ idx < nextId
  vd_total : ∀ i, i < nextId → ∃ l, dget vd i = some l
  compat : MergesCompat md vd
  fresh : ∀ p idx, dget md p = some idx → ∀ sw ∈ segs, pairCount sw p = 0
  len_eq : md.length + 256 = nextId
  rebuild : buildVocabDict md = some vd

theorem trainInv_init (segs : List (List Nat))
    (hsegs : ∀ sw ∈ segs, ∀ x ∈ sw, x < 256) :
    TrainInv 256 segs [] baseVocab where
  next_ge := le_refl 256
  base_ok := fun i hi => by rw [dget_baseVocab, if_pos hi]
  segs_lt := hsegs
  md_lt := by intro p idx h; simp [dget] at h
  vd_total := fun i hi => ⟨[i], by rw [dget_baseVocab, if_pos hi]⟩
  compat := by intro p idx h; simp [dget] at h
  fresh := by intro p idx h; simp [dget] at h
  len_eq := rfl
  rebuild := rfl

theorem trainInv_step (nextId : Nat) (segs : List (List Nat)) (md : MDict) (vd : VDict)
    (p : Pair) (inv : TrainInv nextId segs md vd)
    (hp : maxPair (foldStats segs) = some p) :
    ∃ l1 l2, dget vd p.1 = some l1 ∧ dget vd p.2 = some l2 ∧
      TrainInv (nextId + 1) (segs.map (fun sw => merge sw p nextId))
        (dinsert md p nextId) (dinsert vd nextId (l1 ++ l2)) ∧
      (dinsert md p nextId).length = md.length + 1 := by
  have hng : 256 ≤ nextId := inv.next_ge
  obtain ⟨sw0, hsw0, hpos0⟩ :=
    (mem_foldStats_keys segs p).mp (maxPair_mem (foldStats segs) p hp)
  obtain ⟨hm1, hm2⟩ := pairCount_pos_mem sw0 p hpos0
  have hp1lt : p.1 < nextId := inv.segs_lt sw0 hsw0 p.1 hm1
  have hp2lt : p.2 < nextId := inv.segs_lt sw0 hsw0 p.2 hm2
  have hmdnone : dget md p = none := by
    cases hmd : dget md p with
    | none => rfl
    | some idx =>
      have := inv.fresh p idx hmd sw0 hsw0
      omega
  obtain ⟨l1, hl1⟩ := inv.vd_total p.1 hp1lt
  obtain ⟨l2, hl2⟩ := inv.vd_total p.2 hp2lt
  have hvdget : ∀ i, i < nextId → dget (dinsert vd nextId (l1 ++ l2)) i = dget vd i := by
    intro i hi
    rw [dget_dinsert, if_neg (by omega)]
  refine ⟨l1, l2, hl1, hl2, ?_, length_dinsert_of_not_mem md p nextId hmdnone⟩
  constructor
  case next_ge => omega
  case base_ok =>
    intro i hi
    rw [hvdget i (by omega)]
    exact inv.base_ok i hi
  case segs_lt =>
    intro sw hsw x hx
    obtain ⟨sw1, hsw1, rfl⟩ := List.mem_map.mp hsw
    rcases merge_mem sw1 p nextId x hx with h | rfl
    · have := inv.segs_lt sw1 hsw1 x h
      omega
    · omega
  case md_lt =>
    intro q idx h
    rw [dget_dinsert] at h
    by_cases hq : q = p
    · rw [if_pos hq] at h
      cases h
      subst hq
      exact ⟨by omega, by omega, inv.next_ge, by omega⟩
    · rw [if_neg hq] at h
      have := inv.md_lt q idx h
      exact ⟨by omega, by omega, this.2.2.1, by omega⟩
  case vd_total =>
    intro i hi
    by_cases hieq : i = nextId
    · subst hieq
      exact ⟨l1 ++ l2, by rw [dget_dinsert, if_pos rfl]⟩
    · rw [dget_dinsert, if_neg hieq]
      exact inv.vd_total i (by omega)
  case compat =>
    intro q idx h
    rw [dget_dinsert] at h
    by_cases hq : q = p
    · rw [if_pos hq] at h
      cases h
      subst hq
      exact ⟨l1, l2, by rw [hvdget q.1 hp1lt]; exact hl1,
        by rw [hvdget q.2 hp2lt]; exact hl2, by rw [dget_dinsert, if_pos rfl]⟩
    · rw [if_neg hq] at h
      obtain ⟨m1, m2, hq1, hq2, hqi⟩ := inv.compat q idx h
      obtain ⟨hb1, hb2, _, hb4⟩ := inv.md_lt q idx h
      exact ⟨m1, m2, by rw [hvdget q.1 hb1]; exact hq1,
        by rw [hvdget q.2 hb2]; exact hq2, by rw [hvdget idx hb4]; exact hqi⟩
  case fresh =>
    intro q idx h sw hsw
    obtain ⟨sw1, hsw1, rfl⟩ := List.mem_map.mp hsw
    rw [dget_dinsert] at h
    by_cases hq : q = p
    · subst hq
      exact merge_pairCount_self sw1 q nextId (by omega) (by omega)
    · rw [if_neg hq] at h
      obtain ⟨hb1, hb2, _, _⟩ := inv.md_lt q idx h
      exact merge_pairCount_other sw1 p q nextId (by omega) (by omega)
        (inv.fresh q idx h sw1 hsw1)
  case len_eq =>
    rw [length_dinsert_of_not_mem md p nextId hmdnone]
    have := inv.len_eq
    omega
  case rebuild =>
    rw [dinsert_of_not_mem md p nextId hmdnone, buildVocabDict,
      foldlM_append_option]
    have hmd : buildVocabDict md = some vd := inv.rebuild
    rw [buildVocabDict] at hmd
    rw [hmd]
    simp only [List.foldlM_cons, List.foldlM_nil, hl1, hl2]
    rfl

/-- Unfolding `trainLoop` one step when the selected pair is known. -/
theorem trainLoop_succ_some (n nextId : Nat) (segs : List (List Nat)) (md : MDict)
    (vd : VDict) (p : Pair) (l1 l2 : List Nat)
    (hp : maxPair (foldStats segs) = some p)
    (h1 : dget vd p.1 = some l1) (h2 : dget vd p.2 = some l2) :
    trainLoop (n + 1) nextId segs md vd =
      trainLoop n (nextId + 1) (segs.map (fun sw => merge sw p nextId))
        (dinsert md p nextId) (dinsert vd nextId (l1 ++ l2)) := by
  simp only [trainLoop, hp, h1, h2]

theorem trainLoop_ok (n : Nat) :
    ∀ (nextId : Nat) (segs : List (List Nat)) (md : MDict) (vd : VDict)
      (r : MDict × VDict), TrainInv nextId segs md vd →
      trainLoop n nextId segs md vd = .ok r →
      (∃ segs2, TrainInv (nextId + n) segs2 r.1 r.2) ∧
        r.1.length = md.length + n := by
  induction n with
  | zero =>
    intro nextId segs md vd r inv h
    rw [trainLoop] at h
    cases h
    exact ⟨⟨segs, inv⟩, rfl⟩
  | succ n ih =>
    intro nextId segs md vd r inv h
    cases hp : maxPair (foldStats segs) with
    | none =>
      rw [trainLoop, hp] at h
      cases h
    | some p =>
      obtain ⟨l1, l2, hl1, hl2, inv2, hlen⟩ := trainInv_step nextId segs md vd p inv hp
      rw [trainLoop_succ_some n nextId segs md vd p l1 l2 hp hl1 hl2] at h
      obtain ⟨hinv3, hlen3⟩ := ih (nextId + 1) _ _ _ r inv2 h
      refine ⟨?_, by omega⟩
      obtain ⟨segs2, hinv4⟩ := hinv3
      have heq : nextId + 1 + n = nextId + (n + 1) := by omega
      rw [heq] at hinv4
      exact ⟨segs2, hinv4⟩

theorem trainLoop_ne_invalid (n : Nat) :
    ∀ (nextId : Nat) (segs : List (List Nat)) (md : MDict) (vd : VDict),
      trainLoop n nextId segs md vd ≠ .error .invalidConfiguration := by
  induction n with
  | zero =>
    intro nextId segs md vd h
    rw [trainLoop] at h
    cases h
  | succ n ih =>
    intro nextId segs md vd h
    cases hp : maxPair (foldStats segs) with
    | none =>
      rw [trainLoop, hp] at h
      cases h
    | some p =>
      cases hg1 : dget vd p.1 with
      | none =>
        cases hg2 : dget vd p.2 with
        | none =>
          simp only [trainLoop, hp, hg1, hg2] at h
          exact TrainError.noConfusion (Except.error.inj h)
        | some l2 =>
          simp only [trainLoop, hp, hg1, hg2] at h
          exact TrainError.noConfusion (Except.error.inj h)
      | some l1 =>
        cases hg2 : dget vd p.2 with
        | none =>
          simp only [trainLoop, hp, hg1, hg2] at h
          exact TrainError.noConfusion (Except.error.inj h)
        | some l2 =>
          rw [trainLoop_succ_some n nextId segs md vd p l1 l2 hp hg1 hg2] at h
          exact ih (nextId + 1) _ _ _ h

/-! ## Derived facts about the two `train` entry points -/

theorem trainBasic_inv (text : List Nat) (v : Nat) (r : MDict × VDict)
    (ht : ValidText text) (h : trainBasic text v = .ok r) :
    (∃ nextId segs, TrainInv nextId segs r.1 r.2) ∧ r.1.length = v - 256 := by
  rw [trainBasic] at h
  by_cases hv : v < 256
  · rw [if_pos hv] at h
    cases h
  · rw [if_neg hv] at h
    have hinit : TrainInv 256 [utf8Encode text] [] baseVocab := by
      apply trainInv_init
      intro sw hsw x hx
      simp only [List.mem_singleton] at hsw
      subst hsw
      exact utf8Encode_lt256 text ht x hx
    have hr := trainLoop_ok (v - 256) 256 [utf8Encode text] [] baseVocab r hinit h
    exact ⟨⟨256 + (v - 256), hr.1.choose, hr.1.choose_spec⟩, by simpa using hr.2⟩

theorem trainAdvance_inv (seg : List Nat → List (List Nat)) (text : List Nat) (v : Nat)
    (r : MDict × VDict) (hseg : ∀ sw ∈ seg text, ValidText sw)
    (h : trainAdvance seg text v = .ok r) :
    (∃ nextId segs, TrainInv nextId segs r.1 r.2) ∧ r.1.length = v - 256 := by
  rw [trainAdvance] at h
  by_cases hv : v < 256
  · rw [if_pos hv] at h
    cases h
  · rw [if_neg hv] at h
    have hinit : TrainInv 256 ((seg text).map utf8Encode) [] baseVocab := by
      apply trainInv_init
      intro sw hsw x hx
      obtain ⟨sub, hsub, rfl⟩ := List.mem_map.mp hsw
      exact utf8Encode_lt256 sub (hseg sub hsub) x hx
    have hr := trainLoop_ok (v - 256) 256 _ [] baseVocab r hinit h
    exact ⟨⟨256 + (v - 256), hr.1.choose, hr.1.choose_spec⟩, by simpa using hr.2⟩

/-- Projection of a successful training result, used by the concrete witnesses. -/
def unwrapOk (e : Except TrainError (MDict × VDict)) : MDict × VDict :=
  match e with
  | .ok r => r
  | .error _ => ([], [])

theorem utf8Encode_flatten (ls : List (List Nat)) :
    utf8Encode ls.flatten = (ls.map utf8Encode).flatten := by
  induction ls with
  | nil => rfl
  | cons x xs ih =>
    rw [List.flatten_cons, utf8Encode_append, List.map_cons, List.flatten_cons, ih]

theorem decodeBytes_none_iff (vd : VDict) (ids : List Nat) :
    decodeBytes vd ids = none ↔ ∃ t ∈ ids, dget vd t = none := by
  induction ids with
  | nil => simp [decodeBytes]
  | cons t ts ih =>
    rw [decodeBytes]
    cases hv : dget vd t with
    | none => simp [hv]
    | some v =>
      cases hr : decodeBytes vd ts with
      | none =>
        simp only [hv]
        rw [hr] at ih
        simp only [List.mem_cons]
        constructor
        · intro _
          obtain ⟨t2, ht2, hn⟩ := ih.mp rfl
          exact ⟨t2, Or.inr ht2, hn⟩
        · intro _
          trivial
      | some b =>
        rw [hr] at ih
        simp only [hv, List.mem_cons]
        constructor
        · intro hc
          cases hc
        · rintro ⟨t2, ht2, hn⟩
          rcases ht2 with rfl | ht2
          · rw [hv] at hn
            cases hn
          · have := ih.mpr ⟨t2, ht2, hn⟩
            cases this

theorem decodeBytes_flatten_map (vd : VDict) (f g : List Nat → List Nat)
    (ls : List (List Nat)) (h : ∀ sub ∈ ls, decodeBytes vd (f sub) = some (g sub)) :
    decodeBytes vd (ls.map f).flatten = some (ls.map g).flatten := by
  induction ls with
  | nil => rfl
  | cons x xs ih =>
    rw [List.map_cons, List.flatten_cons, List.map_cons, List.flatten_cons]
    exact decodeBytes_append vd (f x) (xs.map f).flatten (xs.map g).flatten
      (ih (fun sub hsub => h sub (by simp [hsub]))) (g x) (h x (by simp))

theorem getPairStats_fresh_get (l : List Nat) (q : Pair) :
    dget (getPairStats l []) q =
      if 0 < pairCount l q then some (pairCount l q) else none := by
  cases h : dget (getPairStats l []) q with
  | none =>
    have h0 := (getPairStats_none l [] q).mp h
    rw [if_neg (by omega)]
  | some c =>
    have h1 := getPairStats_dgetD l [] q
    have hc : c = pairCount l q := by
      rw [dgetD, h, dgetD] at h1
      simpa [dget] using h1
    have hne : pairCount l q ≠ 0 := by
      intro hz
      have := (getPairStats_none l [] q).mpr ⟨rfl, hz⟩
      rw [h] at this
      cases this
    rw [if_pos (by omega), hc]

/-! ## Claim theorems -/

/-- C4: `helper.merge` performs a single left-to-right scan replacing each
non-overlapping occurrence of the pair by the new ID and copying every other
element (the scan equations), its output is never longer than its input, the
documented example `merge([1,2,3,1,2,4],(1,2),99) = [99,3,99,4]` holds, and an
overlapping run collapses as `merge([a,a,a],(a,a),x) = [x,a]`.  (Input
mutation does not arise in the functional embedding; `merge` builds a new
list.) -/
theorem claim4_applyMerge :
    (∀ (l : List Nat) (p : Pair) (idx : Nat), (merge l p idx).length ≤ l.length) ∧
    merge [1, 2, 3, 1, 2, 4] (1, 2) 99 = [99, 3, 99, 4] ∧
    (∀ a x : Nat, merge [a, a, a] (a, a) x = [x, a]) ∧
    (∀ (a b : Nat) (rest : List Nat) (p : Pair) (idx : Nat),
      merge (a :: b :: rest) p idx =
        if a = p.1 ∧ b = p.2 then idx :: merge rest p idx
        else a :: merge (b :: rest) p idx) ∧
    (∀ (p : Pair) (idx : Nat), merge [] p idx = []) ∧
    (∀ (a : Nat) (p : Pair) (idx : Nat), merge [a] p idx = [a]) := by
  refine ⟨merge_length_le, by decide, ?_, ?_, ?_, ?_⟩
  · intro a x
    rw [merge, if_pos ⟨rfl, rfl⟩]
    rfl
  · intro a b rest p idx
    rw [merge]
  · intro p idx
    rfl
  · intro a p idx
    rfl

/-- C8: `helper.getPairStats` adds, pointwise for every pair, the number of
its adjacent occurrences in the sequence to the supplied accumulator (a fresh
dictionary when none is supplied, mapping exactly the pairs with a positive
count to that count); sequences shorter than 2 contribute nothing. -/
theorem claim8_pairFrequencies :
    (∀ (l : List Nat) (acc : List (Pair × Nat)) (q : Pair),
      dgetD (getPairStats l acc) q 0 = dgetD acc q 0 + pairCount l q) ∧
    (∀ (l : List Nat) (q : Pair),
      dget (getPairStats l []) q =
        if 0 < pairCount l q then some (pairCount l q) else none) ∧
    (∀ acc, getPairStats [] acc = acc) ∧
    (∀ (a : Nat) (acc : List (Pair × Nat)), getPairStats [a] acc = acc) := by
  exact ⟨getPairStats_dgetD, getPairStats_fresh_get, fun acc => rfl, fun a acc => rfl⟩

set_option maxRecDepth 8192 in
/-- C6: decode fails (with `KeyError`, the spec's `UnknownSymbol`, and no
partial output) exactly when some token ID is absent from the vocabulary;
on present IDs it is total, interpreting the concatenated bytes as UTF-8
with `U+FFFD` substituted for malformed runs.  Concretely
`decode([97]) = "a"`, `decode([]) = ""`, and the lone byte `255` decodes to
the replacement character. -/
theorem claim6_decode :
    (∀ (vd : VDict) (ids : List Nat),
      decodeTokens vd ids = none ↔ ∃ t ∈ ids, dget vd t = none) ∧
    decodeTokens baseVocab [97] = some [97] ∧
    decodeTokens baseVocab [] = some [] ∧
    decodeTokens baseVocab [255] = some [0xFFFD] := by
  refine ⟨?_, by decide, by decide, by decide⟩
  intro vd ids
  rw [decodeTokens, ← decodeBytes_none_iff]
  cases decodeBytes vd ids <;> simp

/-- C2: the claim (training stops early and returns normally when no mergeable
pair remains) does not hold of the code: with the empty corpus and one
requested merge, the pair-statistics dictionary is empty and
`max(pairStats, key=...)` raises `ValueError` (modelled by
`TrainError.noPairs`), in both the flat and the segmented trainer (the regex
finds no segments in an empty string). -/
theorem claim2_empty_corpus_crash :
    trainBasic [] 257 = .error .noPairs ∧
    trainAdvance (fun _ => []) [] 257 = .error .noPairs := by
  constructor
  · rfl
  · rfl

theorem exists_pairCount_pos (ids : List Nat) (h : 2 ≤ ids.length) :
    ∃ q, 0 < pairCount ids q := by
  match ids, h with
  | a :: b :: rest, _ =>
    exact ⟨(a, b), by rw [pairCount, if_pos ⟨rfl, rfl⟩]; omega⟩

/-- C9: both `train` entry points fail with the `vocab_size >= 256` assertion
(the spec's `InvalidConfiguration`) exactly when the requested size is below
256; a training run that completes records exactly `vocabSize - 256` merge
rules. -/
theorem claim9_train_precondition (seg : List Nat → List (List Nat))
    (text : List Nat) (v : Nat) (ht : ValidText text)
    (hseg : ∀ sw ∈ seg text, ValidText sw) :
    (trainBasic text v = .error .invalidConfiguration ↔ v < 256) ∧
    (trainAdvance seg text v = .error .invalidConfiguration ↔ v < 256) ∧
    (∀ r, trainBasic text v = .ok r → r.1.length = v - 256) ∧
    (∀ r, trainAdvance seg text v = .ok r → r.1.length = v - 256) := by
  refine ⟨⟨?_, ?_⟩, ⟨?_, ?_⟩, ?_, ?_⟩
  · intro h
    by_contra hv
    rw [trainBasic, if_neg hv] at h
    exact trainLoop_ne_invalid (v - 256) 256 _ [] baseVocab h
  · intro hv
    rw [trainBasic, if_pos hv]
  · intro h
    by_contra hv
    rw [trainAdvance, if_neg hv] at h
    exact trainLoop_ne_invalid (v - 256) 256 _ [] baseVocab h
  · intro hv
    rw [trainAdvance, if_pos hv]
  · intro r h
    exact (trainBasic_inv text v r ht h).2
  · intro r h
    exact (trainAdvance_inv seg text v r hseg h).2

set_option maxRecDepth 100000 in
theorem claim9_train_precondition_witness :
    ValidText [97, 98] ∧
    (∀ sw ∈ ((fun t => [t]) ([97, 98] : List Nat)), ValidText sw) ∧
    trainBasic [97, 98] 257 = .ok (unwrapOk (trainBasic [97, 98] 257)) ∧
    (unwrapOk (trainBasic [97, 98] 257)).1.length = 257 - 256 :=
  ⟨by decide, by decide, rfl,
    (claim9_train_precondition (fun t => [t]) [97, 98] 257 (by decide)
      (by decide)).2.2.1 (unwrapOk (trainBasic [97, 98] 257)) rfl⟩

/-- C10: with an empty merge dictionary (no train or load has happened), the
flat and the segmented encode both return exactly the raw UTF-8 byte values
(the byte-level `BaseTokenizer.encode`), provided the segmentation covers the
text; and all three encodes map the empty string to the empty token list. -/
theorem claim10_untrained_encode (seg : List Nat → List (List Nat)) :
    (∀ t, basicEncode [] t = baseEncode t) ∧
    (∀ t, (seg t).flatten = t → advanceEncode seg [] t = baseEncode t) ∧
    baseEncode [] = [] ∧
    basicEncode [] [] = [] ∧
    ((seg []).flatten = [] → advanceEncode seg [] [] = []) := by
  have h1 : ∀ t, basicEncode ([] : MDict) t = baseEncode t := by
    intro t
    rw [basicEncode, encodeLoop_nilMD]
    rfl
  have h2 : ∀ t, (seg t).flatten = t → advanceEncode seg [] t = baseEncode t := by
    intro t ht
    rw [advanceEncode]
    have hmap : (seg t).map
        (fun sub => encodeLoop [] (utf8Encode sub).length (utf8Encode sub)) =
        (seg t).map utf8Encode :=
      List.map_congr_left (fun sub _ => encodeLoop_nilMD _ _)
    rw [hmap, ← utf8Encode_flatten, ht]
    rfl
  exact ⟨h1, h2, rfl, (h1 []).trans rfl, fun hs => (h2 [] hs).trans rfl⟩

theorem claim10_untrained_encode_witness :
    ((fun t => [t]) ([97] : List Nat)).flatten = [97] ∧
    advanceEncode (fun t => [t]) [] [97] = baseEncode [97] :=
  ⟨rfl, (claim10_untrained_encode (fun t => [t])).2.1 [97] rfl⟩

/-- C5: the segmented encode runs the flat BPE encode loop independently on
every regex segment and concatenates the results in segment order (so no merge
spans a segment boundary), and whenever the segmentation splits `A ++ B` into
the segments of `A` followed by the segments of `B` (both sides end/start at a
pre-tokenization boundary), `encode(A ++ B) = encode(A) ++ encode(B)`. -/
theorem claim5_segment_independence (seg : List Nat → List (List Nat)) (md : MDict)
    (A B : List Nat) (h : seg (A ++ B) = seg A ++ seg B) :
    advanceEncode seg md (A ++ B) = advanceEncode seg md A ++ advanceEncode seg md B ∧
    (∀ T, advanceEncode seg md T =
      ((seg T).map (fun sub => basicEncode md sub)).flatten) := by
  constructor
  · rw [advanceEncode, h, List.map_append, List.flatten_append]
    rfl
  · intro T
    rfl

theorem claim5_segment_independence_witness :
    (fun t : List Nat => t.map (fun c => [c])) ([97] ++ [98]) =
      (fun t : List Nat => t.map (fun c => [c])) [97] ++
        (fun t : List Nat => t.map (fun c => [c])) [98] ∧
    advanceEncode (fun t => t.map (fun c => [c])) [] ([97] ++ [98]) =
      advanceEncode (fun t => t.map (fun c => [c])) [] [97] ++
        advanceEncode (fun t => t.map (fun c => [c])) [] [98] :=
  ⟨rfl, (claim5_segment_independence (fun t => t.map (fun c => [c])) [] [97] [98] rfl).1⟩

/-- C3: `BasicTokenizer.encode` turns the text into UTF-8 byte values and then
loops while the sequence has length at least 2; when no adjacent pair of the
sequence is in the merge dictionary it stops and returns the sequence, and
otherwise it applies a merge for an adjacent pair whose recorded rank is
least among all adjacent pairs present (absent pairs ranking as infinity) and
repeats. -/
theorem claim3_encode_greedy (md : MDict) (text : List Nat) (fuel : Nat)
    (ids : List Nat) :
    basicEncode md text = encodeLoop md (utf8Encode text).length (utf8Encode text) ∧
    (ids.length < 2 → encodeLoop md fuel ids = ids) ∧
    (2 ≤ ids.length → (∀ q, 0 < pairCount ids q → dget md q = none) →
      encodeLoop md (fuel + 1) ids = ids) ∧
    (2 ≤ ids.length → ∀ p0 idx0, 0 < pairCount ids p0 → dget md p0 = some idx0 →
      ∃ p idx, 0 < pairCount ids p ∧ dget md p = some idx ∧
        (∀ q r, 0 < pairCount ids q → dget md q = some r → idx ≤ r) ∧
        encodeLoop md (fuel + 1) ids = encodeLoop md fuel (merge ids p idx)) := by
  refine ⟨rfl, encodeLoop_short md fuel ids, ?_, ?_⟩
  · intro h2 hall
    obtain ⟨q0, hq0⟩ := exists_pairCount_pos ids h2
    have hq0mem : q0 ∈ statKeys (getPairStats ids []) :=
      (pairCount_pos_iff_mem_statKeys ids q0).mpr hq0
    cases hsel : minRankPair md (statKeys (getPairStats ids [])) with
    | none =>
      cases hks : statKeys (getPairStats ids []) with
      | nil =>
        rw [hks] at hq0mem
        simp at hq0mem
      | cons k ks =>
        rw [hks, minRankPair] at hsel
        cases hsel
    | some sel =>
      have hmem := minRankPair_mem md _ sel hsel
      have hcnt : 0 < pairCount ids sel :=
        (pairCount_pos_iff_mem_statKeys ids sel).mp hmem
      rw [encodeLoop_sel_some md fuel ids sel (by omega) hsel, hall sel hcnt]
  · intro h2 p0 idx0 hp0 hidx0
    obtain ⟨q0, hq0⟩ := exists_pairCount_pos ids h2
    have hq0mem : q0 ∈ statKeys (getPairStats ids []) :=
      (pairCount_pos_iff_mem_statKeys ids q0).mpr hq0
    cases hsel : minRankPair md (statKeys (getPairStats ids [])) with
    | none =>
      cases hks : statKeys (getPairStats ids []) with
      | nil =>
        rw [hks] at hq0mem
        simp at hq0mem
      | cons k ks =>
        rw [hks, minRankPair] at hsel
        cases hsel
    | some sel =>
      have hmem := minRankPair_mem md _ sel hsel
      have hcnt : 0 < pairCount ids sel :=
        (pairCount_pos_iff_mem_statKeys ids sel).mp hmem
      have hmin := minRankPair_min md _ sel hsel p0
        ((pairCount_pos_iff_mem_statKeys ids p0).mpr hp0)
      cases hobs : dget md sel with
      | none =>
        rw [hobs, hidx0] at hmin
        have hlt : ¬ (⊤ : WithTop Nat) ≤ ((idx0 : Nat) : WithTop Nat) := by simp
        exact absurd hmin hlt
      | some idx =>
        refine ⟨sel, idx, hcnt, hobs, ?_, ?_⟩
        · intro q r hq hr
          have h3 := minRankPair_min md _ sel hsel q
            ((pairCount_pos_iff_mem_statKeys ids q).mpr hq)
          rw [hobs, hr] at h3
          exact WithTop.coe_le_coe.mp h3
        · rw [encodeLoop_sel_some md fuel ids sel (by omega) hsel, hobs]

theorem claim3_encode_greedy_witness :
    2 ≤ ([97, 98] : List Nat).length ∧
    (∀ q : Pair, 0 < pairCount [97, 98] q → dget ([] : MDict) q = none) ∧
    encodeLoop [] 2 [97, 98] = [97, 98] :=
  ⟨by decide, fun q _ => rfl,
    (claim3_encode_greedy [] [] 1 [97, 98]).2.2.1 (by decide) (fun q _ => rfl)⟩

/-- C1: for well-formed text and any successfully trained tokenizer,
decode inverts encode exactly — for the flat `BasicTokenizer` and, provided
the regex segmentation covers the text, for the segmented
`AdvanceTokenizer`. -/
theorem claim1_round_trip (corpusB corpusA T : List Nat) (vB vA : Nat)
    (seg : List Nat → List (List Nat)) (rB rA : MDict × VDict)
    (hT : ValidText T)
    (hCB : ValidText corpusB)
    (hCA : ∀ sw ∈ seg corpusA, ValidText sw)
    (hB : trainBasic corpusB vB = .ok rB)
    (hA : trainAdvance seg corpusA vA = .ok rA)
    (hsegT : (seg T).flatten = T) :
    decodeTokens rB.2 (basicEncode rB.1 T) = some T ∧
    decodeTokens rA.2 (advanceEncode seg rA.1 T) = some T := by
  obtain ⟨⟨nB, segsB, invB⟩, _⟩ := trainBasic_inv corpusB vB rB hCB hB
  obtain ⟨⟨nA, segsA, invA⟩, _⟩ := trainAdvance_inv seg corpusA vA rA hCA hA
  constructor
  · rw [decodeTokens, basicEncode, encodeLoop_decodeBytes rB.1 rB.2 invB.compat,
      decodeBytes_lt256 rB.2 (utf8Encode T) invB.base_ok (utf8Encode_lt256 T hT)]
    simp [utf8_roundTrip T hT]
  · rw [decodeTokens, advanceEncode]
    have hper : ∀ sub ∈ seg T,
        decodeBytes rA.2
          (encodeLoop rA.1 (utf8Encode sub).length (utf8Encode sub)) =
        some (utf8Encode sub) := by
      intro sub hsub
      have hv : ValidText sub := by
        intro c hc
        apply hT
        rw [← hsegT]
        exact List.mem_flatten.mpr ⟨sub, hsub, hc⟩
      rw [encodeLoop_decodeBytes rA.1 rA.2 invA.compat,
        decodeBytes_lt256 rA.2 (utf8Encode sub) invA.base_ok
          (utf8Encode_lt256 sub hv)]
    rw [decodeBytes_flatten_map rA.2 _ utf8Encode (seg T) hper,
      ← utf8Encode_flatten, hsegT]
    simp [utf8_roundTrip T hT]

set_option maxRecDepth 100000 in
theorem claim1_round_trip_witness :
    ValidText [97, 98] ∧
    trainBasic [97, 98] 257 = .ok (unwrapOk (trainBasic [97, 98] 257)) ∧
    trainAdvance (fun t => [t]) [97, 98] 257 =
      .ok (unwrapOk (trainAdvance (fun t => [t]) [97, 98] 257)) ∧
    ((fun t : List Nat => [t]) [97, 98]).flatten = [97, 98] ∧
    decodeTokens (unwrapOk (trainBasic [97, 98] 257)).2
      (basicEncode (unwrapOk (trainBasic [97, 98] 257)).1 [97, 98]) =
        some [97, 98] ∧
    decodeTokens (unwrapOk (trainAdvance (fun t => [t]) [97, 98] 257)).2
      (advanceEncode (fun t => [t])
        (unwrapOk (trainAdvance (fun t => [t]) [97, 98] 257)).1 [97, 98]) =
        some [97, 98] :=
  ⟨by decide, rfl, rfl, rfl,
    (claim1_round_trip [97, 98] [97, 98] [97, 98] 257 257 (fun t => [t])
      (unwrapOk (trainBasic [97, 98] 257))
      (unwrapOk (trainAdvance (fun t => [t]) [97, 98] 257))
      (by decide) (by decide) (by decide) rfl rfl rfl).1,
    (claim1_round_trip [97, 98] [97, 98] [97, 98] 257 257 (fun t => [t])
      (unwrapOk (trainBasic [97, 98] 257))
      (unwrapOk (trainAdvance (fun t => [t]) [97, 98] 257))
      (by decide) (by decide) (by decide) rfl rfl rfl).2⟩

/-- C7: after a successful `BasicTokenizer.train`, the vocabulary maps every
ID below 256 to its single byte, maps the new ID of every recorded merge rule
(always at least 256) to the concatenation of the vocabulary entries of the
rule's two sides, and equals exactly what `_build_vocab_dict` rebuilds from
the merge dictionary — so the vocabulary is a pure function of the rules, and
rebuilding any number of times yields the same mapping. -/
theorem claim7_vocab_invariant (text : List Nat) (v : Nat) (r : MDict × VDict)
    (hT : ValidText text) (h : trainBasic text v = .ok r) :
    (∀ i, i < 256 → dget r.2 i = some [i]) ∧
    (∀ p idx, dget r.1 p = some idx → 256 ≤ idx ∧
      ∃ l1 l2, dget r.2 p.1 = some l1 ∧ dget r.2 p.2 = some l2 ∧
        dget r.2 idx = some (l1 ++ l2)) ∧
    buildVocabDict r.1 = some r.2 := by
  obtain ⟨⟨n, segs, inv⟩, _⟩ := trainBasic_inv text v r hT h
  exact ⟨inv.base_ok,
    fun p idx hp => ⟨(inv.md_lt p idx hp).2.2.1, inv.compat p idx hp⟩,
    inv.rebuild⟩

set_option maxRecDepth 100000 in
theorem claim7_vocab_invariant_witness :
    ValidText [97, 98] ∧
    trainBasic [97, 98] 257 = .ok (unwrapOk (trainBasic [97, 98] 257)) ∧
    buildVocabDict (unwrapOk (trainBasic [97, 98] 257)).1 =
      some (unwrapOk (trainBasic [97, 98] 257)).2 :=
  ⟨by decide, rfl,
    (claim7_vocab_invariant [97, 98] 257 (unwrapOk (trainBasic [97, 98] 257))
      (by decide) rfl).2.2⟩

end ToyGPT
